import Mathlib

/-!
Verification of the Solana-Workspace centralized-exchange matching core.

The repository ships the matching engine's design documents, the API
server's SQL migrations and a TypeScript client.  The Rust engine itself
(orderbook.rs, matcher.rs, executor.rs, balance_cache.rs, wal.rs,
engine.rs) is not part of the checked-in sources, so the engine-side
definitions below are modelled from the specification (each such
definition says so in its doc comment).  Definitions taken from checked-in
sources (the SQL schema and the TypeScript client) cite their files.

Monetary quantities are `DECIMAL(30, 9)` fixed-point values in the
database and `rust_decimal::Decimal` in the engine; we embed them as
integers counting smallest (10^-9) units, which is exact for every value
those types can hold.
-/

namespace Exchange

/-! ### Balance ledger (spec 4.1, `balance_cache.rs`) -/

abbrev Account := Nat

abbrev Asset := Nat

/-- Modelled from the spec: a Balance Record holds, per (account, asset),
an available amount and a locked amount. -/
structure Bal where
  available : ℤ
  locked : ℤ
deriving DecidableEq, Repr

/-- Modelled from the spec: the Balance Ledger is an in-memory map of
available/locked funds per (account, asset). -/
abbrev Ledger := Account → Asset → Bal

/-- Modelled from the spec: a single-entry update of the ledger, adding
`da` to the available amount and `dl` to the locked amount of one
(account, asset) entry.  Every ledger mutation of the spec is a
composition of such updates. -/
def adjust (led : Ledger) (a : Account) (m : Asset) (da dl : ℤ) : Ledger :=
  fun a' m' =>
    if a' = a ∧ m' = m then
      ⟨(led a m).available + da, (led a m).locked + dl⟩
    else led a' m'

/-- The total (available + locked) amount of asset `m` held across a list
of accounts. -/
def assetTotal (accts : List Account) (m : Asset) (led : Ledger) : ℤ :=
  (accts.map fun a => (led a m).available + (led a m).locked).sum

inductive LedgerError
  | insufficientFunds
deriving DecidableEq, Repr

/-- Modelled from the spec: `reserve(account, asset, amount)` moves
`amount` from available to locked, failing atomically with
`InsufficientFunds` (no partial reservation) if available < amount. -/
def reserve (led : Ledger) (a : Account) (m : Asset) (amt : ℤ) :
    Except LedgerError Ledger :=
  if (led a m).available < amt then .error .insufficientFunds
  else .ok (adjust led a m (-amt) amt)

/-- Modelled from the spec: `release(account, asset, amount)` moves
locked → available; it fails fatally (`none`, a logic error rather than a
user-facing error) if locked < amount. -/
def release (led : Ledger) (a : Account) (m : Asset) (amt : ℤ) :
    Option Ledger :=
  if (led a m).locked < amt then none
  else some (adjust led a m amt (-amt))

/-- Modelled from the spec: the balance movements of
`settle_fill(buyer, seller, pair, price, quantity, fee)` — the buyer's
locked quote decreases by price*quantity and the buyer's available base
is credited with quantity minus the base-side fee; the seller's locked
base decreases by quantity and the seller's available quote is credited
with price*quantity minus the quote-side fee; the withheld fees are
credited to the exchange's fee account (the spec's conservation property
demands that no funds are created or destroyed). -/
def settleFillCore (led : Ledger) (buyer seller feeAccount : Account)
    (base quote : Asset) (price qty feeBase feeQuote : ℤ) : Ledger :=
  adjust
    (adjust
      (adjust
        (adjust
          (adjust
            (adjust led buyer quote 0 (-(price * qty)))
            buyer base (qty - feeBase) 0)
          seller base 0 (-qty))
        seller quote (price * qty - feeQuote) 0)
      feeAccount base feeBase 0)
    feeAccount quote feeQuote 0

/-- Modelled from the spec: `settle_fill` applied transactionally — it
fails (a fatal inconsistency for the engine loop) without touching the
ledger when the locked funds do not cover the fill or the fees are
malformed, and otherwise performs all balance movements at once. -/
def settle_fill (led : Ledger) (buyer seller feeAccount : Account)
    (base quote : Asset) (price qty feeBase feeQuote : ℤ) : Option Ledger :=
  if base = quote then none
  else if feeBase < 0 ∨ qty < feeBase ∨ feeQuote < 0 ∨ price * qty < feeQuote then none
  else if (led buyer quote).locked < price * qty ∨ (led seller base).locked < qty then none
  else some (settleFillCore led buyer seller feeAccount base quote price qty feeBase feeQuote)

/-- Modelled from the spec: the ledger mutations reachable from the
engine loop — a submit reserves funds, a cancel releases them, a match
settles a fill. -/
inductive LedgerOp
  | reserveOp (a : Account) (m : Asset) (amt : ℤ)
  | releaseOp (a : Account) (m : Asset) (amt : ℤ)
  | fillOp (buyer seller feeAccount : Account) (base quote : Asset)
      (price qty feeBase feeQuote : ℤ)
deriving DecidableEq, Repr

/-- Accounts an operation credits or debits. -/
def opAccounts : LedgerOp → List Account
  | .reserveOp a _ _ => [a]
  | .releaseOp a _ _ => [a]
  | .fillOp buyer seller feeAccount _ _ _ _ _ _ => [buyer, seller, feeAccount]

/-- Modelled from the spec: applying one ledger operation; a failed
operation changes nothing (atomic failure). -/
def applyLedgerOp (led : Ledger) : LedgerOp → Ledger
  | .reserveOp a m amt =>
    match reserve led a m amt with
    | .ok led' => led'
    | .error _ => led
  | .releaseOp a m amt => (release led a m amt).getD led
  | .fillOp buyer seller feeAccount base quote price qty feeBase feeQuote =>
    (settle_fill led buyer seller feeAccount base quote price qty feeBase feeQuote).getD led

/-- The spec's standing invariant on every balance record:
available ≥ 0 and locked ≥ 0 at all times. -/
def NonnegLedger (led : Ledger) : Prop :=
  ∀ a m, 0 ≤ (led a m).available ∧ 0 ≤ (led a m).locked

/-- Modelled from the spec: a resting order inside a price level — only
its id and remaining quantity matter to the matcher; the price is the
level's price. -/
structure RestingOrder where
  id : Nat
  qty : ℤ
deriving DecidableEq, Repr

/-- Modelled from the spec: a Price Level holds one resting price and an
ordered (FIFO by arrival) collection of orders at that price. -/
structure PriceLevel where
  price : ℤ
  orders : List RestingOrder
deriving DecidableEq, Repr

/-- Modelled from the spec: one matcher output tuple
(resting order, fill price, fill quantity). -/
structure Fill where
  restingId : Nat
  price : ℤ
  qty : ℤ
deriving DecidableEq, Repr

inductive Side
  | buy
  | sell
deriving DecidableEq, Repr

inductive OrderKind
  | limit
  | market
deriving DecidableEq, Repr

/-- Modelled from the spec: the incoming (taker) order as the matcher
sees it.  `price` is meaningful only when `kind = limit`. -/
structure IncomingOrder where
  id : Nat
  side : Side
  kind : OrderKind
  price : ℤ
  qty : ℤ
deriving DecidableEq, Repr

/-- Modelled from the spec: two orders cross when buy price ≥ sell price
for limit-vs-limit, and a market order crosses at any price available on
the opposite side. -/
def crossesAt (inc : IncomingOrder) (levelPrice : ℤ) : Bool :=
  match inc.kind with
  | .market => true
  | .limit =>
    match inc.side with
    | .buy => decide (levelPrice ≤ inc.price)
    | .sell => decide (inc.price ≤ levelPrice)

/-- Modelled from the spec: matching within one price level — the order
that arrived earliest fills first, fill quantity per step is
min(incoming remaining, resting remaining), and a partially consumed
resting order stays at the head of the level.  Returns the fills, the
level's surviving orders and the incoming order's remaining quantity. -/
def matchLevel (q : ℤ) (p : ℤ) : List RestingOrder → List Fill × List RestingOrder × ℤ
  | [] => ([], [], q)
  | o :: rest =>
    if q ≤ 0 then ([], o :: rest, q)
    else if o.qty ≤ q then
      let r := matchLevel (q - o.qty) p rest
      (⟨o.id, p, o.qty⟩ :: r.1, r.2.1, r.2.2)
    else
      ([⟨o.id, p, q⟩], ⟨o.id, o.qty - q⟩ :: rest, 0)

/-- Modelled from the spec: matching against the opposite side's price
levels, kept in matching-priority order (best price first); matching
stops when the incoming order is fully filled or no further level
crosses.  A fully consumed level is removed. -/
def matchSide (inc : IncomingOrder) : ℤ → List PriceLevel → List Fill × List PriceLevel × ℤ
  | q, [] => ([], [], q)
  | q, l :: ls =>
    if q ≤ 0 ∨ crossesAt inc l.price = false then ([], l :: ls, q)
    else
      let r := matchLevel q l.price l.orders
      if r.2.1.isEmpty then
        let r2 := matchSide inc r.2.2 ls
        (r.1 ++ r2.1, r2.2.1, r2.2.2)
      else
        (r.1, ⟨l.price, r.2.1⟩ :: ls, r.2.2)

/-- The resting-order ids of a side, flattened in matching-priority order
(best price level first, FIFO within a level). -/
def sideIds : List PriceLevel → List Nat
  | [] => []
  | l :: ls => l.orders.map RestingOrder.id ++ sideIds ls

/-- Modelled from the spec: the order book of one trading pair — bid side
ordered by descending price, ask side ordered by ascending price. -/
structure OrderBook where
  bids : List PriceLevel
  asks : List PriceLevel
deriving DecidableEq, Repr

def oppositeLevels (b : OrderBook) : Side → List PriceLevel
  | .buy => b.asks
  | .sell => b.bids

def withOpposite (b : OrderBook) : Side → List PriceLevel → OrderBook
  | .buy, ls => { b with asks := ls }
  | .sell, ls => { b with bids := ls }

def sameLevels (b : OrderBook) : Side → List PriceLevel
  | .buy => b.bids
  | .sell => b.asks

def withSame (b : OrderBook) : Side → List PriceLevel → OrderBook
  | .buy, ls => { b with bids := ls }
  | .sell, ls => { b with asks := ls }

/-- Whether price `p` has strictly better priority than `q` on this side:
higher for bids, lower for asks. -/
def betterPrice : Side → ℤ → ℤ → Bool
  | .buy, p, q => decide (q < p)
  | .sell, p, q => decide (p < q)

/-- Modelled from the spec: `insert(order)` places a limit order's
remaining quantity at its price level, appended after existing orders at
that price (time priority by arrival); a missing level is created at its
priority position. -/
def insertLimit (side : Side) (p : ℤ) (o : RestingOrder) : List PriceLevel → List PriceLevel
  | [] => [⟨p, [o]⟩]
  | l :: ls =>
    if l.price = p then ⟨l.price, l.orders ++ [o]⟩ :: ls
    else if betterPrice side p l.price then ⟨p, [o]⟩ :: l :: ls
    else l :: insertLimit side p o ls

inductive SubmitOutcome
  | success
  | partialFill
  | noLiquidity
  | rested
deriving DecidableEq, Repr

structure SubmitResult where
  outcome : SubmitOutcome
  fills : List Fill
  remaining : ℤ
deriving DecidableEq, Repr

/-- Modelled from the spec: processing one incoming order against the
book — a market order against an empty opposite side reports the
distinct `noLiquidity` outcome with zero fills; a market order's
unmatched remainder is rejected (never inserted); a limit order's
remainder is inserted into the book. -/
def processSubmit (b : OrderBook) (inc : IncomingOrder) : SubmitResult × OrderBook :=
  match inc.kind with
  | .market =>
    if (oppositeLevels b inc.side).isEmpty then (⟨.noLiquidity, [], inc.qty⟩, b)
    else
      let r := matchSide inc inc.qty (oppositeLevels b inc.side)
      if r.2.2 ≤ 0 then (⟨.success, r.1, r.2.2⟩, withOpposite b inc.side r.2.1)
      else (⟨.partialFill, r.1, r.2.2⟩, withOpposite b inc.side r.2.1)
  | .limit =>
    let r := matchSide inc inc.qty (oppositeLevels b inc.side)
    if r.2.2 ≤ 0 then (⟨.success, r.1, r.2.2⟩, withOpposite b inc.side r.2.1)
    else
      (⟨.rested, r.1, r.2.2⟩,
        withSame (withOpposite b inc.side r.2.1) inc.side
          (insertLimit inc.side inc.price ⟨inc.id, r.2.2⟩
            (sameLevels b inc.side)))

/-- From `007_create_trades.sql`: a trade row records the two order ids,
the two account ids, the execution price and quantity. -/
structure TradeRec where
  buyOrderId : Nat
  sellOrderId : Nat
  buyerId : Nat
  sellerId : Nat
  price : ℤ
  qty : ℤ
deriving DecidableEq, Repr

/-- Modelled from the spec: the Executor constructs one Trade record per
fill, copying the fill's (maker) price and quantity. -/
def mkTrade (buyOrderId sellOrderId buyerId sellerId : Nat) (f : Fill) : TradeRec :=
  ⟨buyOrderId, sellOrderId, buyerId, sellerId, f.price, f.qty⟩

/-- From `005_create_user_balances.sql`: the four order statuses
pending / partial / filled / cancelled. -/
inductive OrderStatus
  | pending
  | partiallyFilled
  | filled
  | cancelled
deriving DecidableEq, Repr

def terminalStatus : OrderStatus → Bool
  | .filled => true
  | .cancelled => true
  | _ => false

/-- The status transitions the spec allows: pending may become partial,
filled or cancelled; partial may become filled or cancelled; filled and
cancelled are terminal; a status may also stay unchanged. -/
def statusStep (s t : OrderStatus) : Prop :=
  s = t ∨
    (s = .pending ∧ (t = .partiallyFilled ∨ t = .filled ∨ t = .cancelled)) ∨
    (s = .partiallyFilled ∧ (t = .filled ∨ t = .cancelled))

/-- Modelled from the spec: the mutable per-order state the Executor
updates — original quantity, filled quantity and status. -/
structure LifeOrder where
  amount : ℤ
  filledAmount : ℤ
  status : OrderStatus
deriving DecidableEq, Repr

/-- Modelled from the spec: the Executor's per-fill order update — the
filled quantity grows by the fill quantity (never beyond the original
quantity: a larger fill is a fatal inconsistency, `none`), and the order
becomes `filled` exactly when the filled quantity reaches the original
quantity, `partial` otherwise.  A terminal order is never updated. -/
def applyFill (o : LifeOrder) (q : ℤ) : Option LifeOrder :=
  if terminalStatus o.status then none
  else if q ≤ 0 ∨ o.amount - o.filledAmount < q then none
  else
    some { o with
      filledAmount := o.filledAmount + q,
      status := if o.filledAmount + q = o.amount then .filled else .partiallyFilled }

/-- Modelled from the spec: explicit cancellation — a terminal order is
rejected, otherwise the status becomes `cancelled`. -/
def applyCancel (o : LifeOrder) : Option LifeOrder :=
  if terminalStatus o.status then none
  else some { o with status := .cancelled }

/-! ### Cancel command (spec 4.6, 6) -/

inductive CancelError
  | notFound
  | notOwner
  | alreadyTerminal
  | fatal
deriving DecidableEq, Repr

/-- Modelled from the spec: an open order as the engine's cancel path
sees it — id, owner, status, and the asset and amount still locked for
it. -/
structure EngOrder where
  id : Nat
  userId : Nat
  status : OrderStatus
  lockedAsset : Asset
  lockedRemaining : ℤ
deriving DecidableEq, Repr

/-- Modelled from the spec: `CancelOrder(account_id, order_id)` —
verifies existence and ownership, rejects an already-terminal order with
`AlreadyTerminal`, and otherwise marks the order cancelled and releases
its full remaining locked amount back to available.  On any error the
orders and the ledger are returned unchanged. -/
def cancelOrder (orders : List EngOrder) (led : Ledger) (uid oid : Nat) :
    Except CancelError ℤ × List EngOrder × Ledger :=
  match orders.find? (fun o => decide (o.id = oid)) with
  | none => (.error .notFound, orders, led)
  | some o =>
    if o.userId ≠ uid then (.error .notOwner, orders, led)
    else if terminalStatus o.status then (.error .alreadyTerminal, orders, led)
    else
      match release led o.userId o.lockedAsset o.lockedRemaining with
      | none => (.error .fatal, orders, led)
      | some led' =>
        (.ok o.lockedRemaining,
          orders.map (fun x =>
            if x.id = oid then { x with status := .cancelled, lockedRemaining := 0 } else x),
          led')

/-! ### Engine loop and write-ahead log (spec 4.5-4.6, `engine.rs`, `wal.rs`) -/

/-- Modelled from the spec: the WAL entry kinds order accepted / order
cancelled (trade entries are appended by the same mechanism and carry the
same sequence-number discipline). -/
inductive WalEntry
  | orderAccepted (orderId : Nat)
  | orderCancelled (orderId : Nat)
deriving DecidableEq, Repr

/-- The observable actions one engine-loop iteration performs, in
order. -/
inductive EngineEvent
  | walAppend (seq : Nat) (e : WalEntry)
  | bookMutation
  | ledgerMutation
  | respond
deriving DecidableEq, Repr

/-- Modelled from the spec: the command protocol — SubmitOrder and
CancelOrder mutate state; GetOrderBook and GetBalance are read-only
queries. -/
inductive EngCommand
  | submitOrder (inc : IncomingOrder)
  | cancelOrderCmd (userId orderId : Nat)
  | getOrderBook
  | getBalance (a : Account) (m : Asset)
deriving DecidableEq, Repr

def isMutating : EngCommand → Bool
  | .submitOrder _ => true
  | .cancelOrderCmd _ _ => true
  | .getOrderBook => false
  | .getBalance _ _ => false

/-- Modelled from the spec: the state owned by the single engine
thread — the WAL (entries tagged with their sequence numbers), the next
sequence number, the order book, the open orders and the ledger. -/
structure EngineState where
  wal : List (Nat × WalEntry)
  nextSeq : Nat
  book : OrderBook
  orders : List EngOrder
  ledger : Ledger

/-- Modelled from the spec: one engine-loop iteration — (a) receive the
command, (b) append the WAL entry with its own sequence number, (c) apply
the in-memory mutation, (d) return the result; read-only queries return a
snapshot without touching the WAL. -/
def engineStep (st : EngineState) (c : EngCommand) : EngineState × List EngineEvent :=
  match c with
  | .submitOrder inc =>
    ({ st with
        wal := st.wal ++ [(st.nextSeq, .orderAccepted inc.id)],
        nextSeq := st.nextSeq + 1,
        book := (processSubmit st.book inc).2 },
      [.walAppend st.nextSeq (.orderAccepted inc.id), .bookMutation, .ledgerMutation,
        .respond])
  | .cancelOrderCmd uid oid =>
    ({ st with
        wal := st.wal ++ [(st.nextSeq, .orderCancelled oid)],
        nextSeq := st.nextSeq + 1,
        orders := (cancelOrder st.orders st.ledger uid oid).2.1,
        ledger := (cancelOrder st.orders st.ledger uid oid).2.2 },
      [.walAppend st.nextSeq (.orderCancelled oid), .bookMutation, .ledgerMutation,
        .respond])
  | .getOrderBook => (st, [.respond])
  | .getBalance _ _ => (st, [.respond])

/-- Every mutation event in a trace comes after some WAL append: scanning
from the front, the first non-`respond` event must be a WAL append. -/
def mutationsLogged : List EngineEvent → Bool
  | [] => true
  | .walAppend _ _ :: _ => true
  | .bookMutation :: _ => false
  | .ledgerMutation :: _ => false
  | .respond :: rest => mutationsLogged rest

/-- The WAL's sequence numbers are strictly increasing and all below the
next sequence number to be assigned. -/
def WalSeqOk (st : EngineState) : Prop :=
  List.Chain' (· < ·) (st.wal.map Prod.fst) ∧
    ∀ s ∈ st.wal.map Prod.fst, s < st.nextSeq

/-! ### TypeScript client (`src/client/solana-exchange/src`) -/

/-- From `lib/api.ts` lines 413-421: the `CreateOrderRequest` payload —
`price` only for limit orders, `amount` for limit orders and all sells,
`quote_amount` only for market buys. -/
structure CreateOrderRequest where
  order_type : String
  order_side : String
  base_mint : String
  quote_mint : Option String
  price : Option String
  amount : Option String
  quote_amount : Option String
deriving DecidableEq, Repr

/-- From `OrderManagement.tsx` lines 317-334: how the client builds the
create-order request — limit orders send price and amount, market buys
send `quote_amount` only, market sells send amount only. -/
def buildCreateOrderRequest (orderType orderSide price amount quoteAmount : String) :
    CreateOrderRequest :=
  if orderSide = "limit" then
    ⟨orderType, orderSide, "SOL", some "USDT", some price, some amount, none⟩
  else if orderType = "buy" then
    ⟨orderType, orderSide, "SOL", some "USDT", none, none, some quoteAmount⟩
  else
    ⟨orderType, orderSide, "SOL", some "USDT", none, some amount, none⟩

/-- From `lib/api.ts` lines 423-437: the order fields the client reads
(numeric strings already parsed). -/
structure ClientOrder where
  id : Nat
  order_type : String
  order_side : String
  amount : ℚ
  filled_amount : ℚ
  filled_quote_amount : ℚ
deriving DecidableEq, Repr

/-- From `MyOrders.tsx` lines 37-45: the filled-tab filter applied to
`partial`-status orders — a market buy whose stored amount is 0 counts as
fully filled when any quantity has filled; every other order counts as
fully filled when `filled_amount >= amount` and `amount > 0`. -/
def fullyFilledFilter (o : ClientOrder) : Bool :=
  if o.order_side = "market" ∧ o.order_type = "buy" ∧ o.amount = 0 then
    decide (0 < o.filled_amount)
  else
    decide (o.amount ≤ o.filled_amount) && decide (0 < o.amount)

inductive PaymentDisplay
  | amountPaid (q : ℚ)
  | calculating
  | dash
deriving DecidableEq, Repr

/-- From `MyOrders.tsx` lines 232-240: how the filled tab displays a
market buy's spend — `filled_quote_amount` when positive, a placeholder
while it is still 0 but some quantity filled, a dash otherwise. -/
def marketBuyPaymentDisplay (o : ClientOrder) : PaymentDisplay :=
  if 0 < o.filled_quote_amount then .amountPaid o.filled_quote_amount
  else if 0 < o.filled_amount then .calculating
  else .dash

/-! ### Persisted schema and cascade deletion
(`005_create_user_balances.sql`, `007_create_trades.sql`,
`009_add_cascade_to_trades.sql`) -/

structure UserRow where
  id : Nat
deriving DecidableEq, Repr

structure OrderRow where
  id : Nat
  userId : Nat
deriving DecidableEq, Repr

structure BalanceRow where
  id : Nat
  userId : Nat
  mint : Nat
deriving DecidableEq, Repr

/-- From `007_create_trades.sql` / `009_add_cascade_to_trades.sql`: a
trade row references the buy and sell orders and, denormalized for fast
lookup, the buyer and seller user ids. -/
structure DbTradeRow where
  id : Nat
  buyOrderId : Nat
  sellOrderId : Nat
  buyerId : Nat
  sellerId : Nat
deriving DecidableEq, Repr

structure DbState where
  users : List UserRow
  orders : List OrderRow
  balances : List BalanceRow
  trades : List DbTradeRow
deriving DecidableEq, Repr

/-- The foreign-key constraints of the schema: orders and balances
reference users; trades reference both orders and both users. -/
def RefIntegrity (db : DbState) : Prop :=
  (∀ o ∈ db.orders, ∃ u ∈ db.users, u.id = o.userId) ∧
  (∀ b ∈ db.balances, ∃ u ∈ db.users, u.id = b.userId) ∧
  (∀ t ∈ db.trades,
    (∃ u ∈ db.users, u.id = t.buyerId) ∧
    (∃ u ∈ db.users, u.id = t.sellerId) ∧
    (∃ o ∈ db.orders, o.id = t.buyOrderId) ∧
    (∃ o ∈ db.orders, o.id = t.sellOrderId))

/-- The schema's documented denormalization invariant: a trade's
`buyer_id`/`seller_id` equal the `user_id` of its buy/sell order. -/
def TradeOwnersConsistent (db : DbState) : Prop :=
  ∀ t ∈ db.trades,
    (∀ o ∈ db.orders, o.id = t.buyOrderId → o.userId = t.buyerId) ∧
    (∀ o ∈ db.orders, o.id = t.sellOrderId → o.userId = t.sellerId)

/-- The `ON DELETE CASCADE` semantics after migration 009: deleting a
user deletes that user's orders and balances (`user_id` foreign keys) and
every trade whose buyer or seller is that user (`buyer_id`/`seller_id`
foreign keys). -/
def deleteUser (db : DbState) (uid : Nat) : DbState :=
  { users := db.users.filter fun u => decide (u.id ≠ uid)
    orders := db.orders.filter fun o => decide (o.userId ≠ uid)
    balances := db.balances.filter fun b => decide (b.userId ≠ uid)
    trades := db.trades.filter fun t => decide (t.buyerId ≠ uid) && decide (t.sellerId ≠ uid) }

/-! ### Concrete fixtures used to evaluate the definitions -/

/-- A ledger in which every (account, asset) entry holds 100 available
and 100 locked. -/
def wLed : Ledger := fun _ _ => ⟨100, 100⟩

/-- An engine state with one WAL entry at sequence number 0. -/
def wSt : EngineState := ⟨[(0, .orderAccepted 1)], 1, ⟨[], []⟩, [], wLed⟩

/-- A submit command for a limit buy of 1 unit at price 10. -/
def wCmd : EngCommand := .submitOrder ⟨5, .buy, .limit, 10, 1⟩

/-- A small consistent database: three users, three orders, two balances
and two trades. -/
def wDb : DbState :=
  { users := [⟨1⟩, ⟨2⟩, ⟨3⟩]
    orders := [⟨10, 1⟩, ⟨11, 2⟩, ⟨12, 3⟩]
    balances := [⟨20, 1, 0⟩, ⟨21, 2, 0⟩]
    trades := [⟨30, 10, 11, 1, 2⟩, ⟨31, 12, 11, 3, 2⟩] }

/-! ### Supporting lemmas -/

theorem adjust_apply (led : Ledger) (a : Account) (m : Asset) (da dl : ℤ)
    (a' : Account) (m' : Asset) :
    adjust led a m da dl a' m' =
      if a' = a ∧ m' = m then
        ⟨(led a m).available + da, (led a m).locked + dl⟩
      else led a' m' := rfl

theorem assetTotal_adjust_zero (accts : List Account) (m m' : Asset)
    (led : Ledger) (a : Account) (da dl : ℤ) (h : da + dl = 0) :
    assetTotal accts m (adjust led a m' da dl) = assetTotal accts m led := by
  unfold assetTotal
  congr 1
  apply List.map_congr_left
  intro x _
  by_cases hx : x = a ∧ m = m'
  · obtain ⟨h1, h2⟩ := hx
    subst h1; subst h2
    rw [adjust_apply, if_pos ⟨rfl, rfl⟩]
    simp only
    omega
  · rw [adjust_apply, if_neg hx]

theorem assetTotal_adjust_asset (accts : List Account) (m m' : Asset)
    (led : Ledger) (a : Account) (da dl : ℤ) (h : m' ≠ m) :
    assetTotal accts m (adjust led a m' da dl) = assetTotal accts m led := by
  unfold assetTotal
  congr 1
  apply List.map_congr_left
  intro x _
  have hne : ¬(x = a ∧ m = m') := by
    rintro ⟨_, rfl⟩; exact h rfl
  rw [adjust_apply, if_neg hne]

theorem assetTotal_adjust_mem (accts : List Account) (m : Asset)
    (led : Ledger) (a : Account) (da dl : ℤ)
    (hnd : accts.Nodup) (ha : a ∈ accts) :
    assetTotal accts m (adjust led a m da dl) =
      assetTotal accts m led + (da + dl) := by
  induction accts with
  | nil => cases ha
  | cons x xs ih =>
    have hnd' : xs.Nodup := (List.nodup_cons.mp hnd).2
    have hxnotin : x ∉ xs := (List.nodup_cons.mp hnd).1
    unfold assetTotal
    simp only [List.map_cons, List.sum_cons]
    by_cases hax : a = x
    · subst hax
      have hhead : (adjust led a m da dl a m).available +
          (adjust led a m da dl a m).locked =
          ((led a m).available + (led a m).locked) + (da + dl) := by
        rw [adjust_apply, if_pos ⟨rfl, rfl⟩]; ring
      have htail : (xs.map fun y => ((adjust led a m da dl) y m).available +
          ((adjust led a m da dl) y m).locked).sum =
          (xs.map fun y => (led y m).available + (led y m).locked).sum := by
        congr 1
        apply List.map_congr_left
        intro y hy
        have hne : ¬(y = a ∧ m = m) := by rintro ⟨rfl, -⟩; exact hxnotin hy
        rw [adjust_apply, if_neg hne]
      rw [hhead, htail]; ring
    · have hmem' : a ∈ xs := by
        rcases List.mem_cons.mp ha with h | h
        · exact absurd h hax
        · exact h
      have hhead : (adjust led a m da dl x m).available +
          (adjust led a m da dl x m).locked =
          (led x m).available + (led x m).locked := by
        have hne : ¬(x = a ∧ m = m) := by rintro ⟨h1, -⟩; exact hax h1.symm
        rw [adjust_apply, if_neg hne]
      have ht := ih hnd' hmem'
      unfold assetTotal at ht
      rw [hhead, ht]; ring

theorem assetTotal_settleFillCore (accts : List Account) (m : Asset)
    (led : Ledger) (buyer seller feeAccount : Account) (base quote : Asset)
    (price qty feeBase feeQuote : ℤ)
    (hnd : accts.Nodup) (hb : buyer ∈ accts) (hs : seller ∈ accts)
    (hf : feeAccount ∈ accts) (hbq : base ≠ quote) :
    assetTotal accts m
      (settleFillCore led buyer seller feeAccount base quote price qty feeBase feeQuote) =
      assetTotal accts m led := by
  unfold settleFillCore
  by_cases hmq : quote = m
  · subst hmq
    rw [assetTotal_adjust_mem _ _ _ _ _ _ hnd hf,
        assetTotal_adjust_asset _ _ _ _ _ _ _ hbq,
        assetTotal_adjust_mem _ _ _ _ _ _ hnd hs,
        assetTotal_adjust_asset _ _ _ _ _ _ _ hbq,
        assetTotal_adjust_asset _ _ _ _ _ _ _ hbq,
        assetTotal_adjust_mem _ _ _ _ _ _ hnd hb]
    ring
  · by_cases hmb : base = m
    · subst hmb
      have hqb : quote ≠ base := fun h => hbq h.symm
      rw [assetTotal_adjust_asset _ _ _ _ _ _ _ hqb,
          assetTotal_adjust_mem _ _ _ _ _ _ hnd hf,
          assetTotal_adjust_asset _ _ _ _ _ _ _ hqb,
          assetTotal_adjust_mem _ _ _ _ _ _ hnd hs,
          assetTotal_adjust_mem _ _ _ _ _ _ hnd hb,
          assetTotal_adjust_asset _ _ _ _ _ _ _ hqb]
      ring
    · rw [assetTotal_adjust_asset _ _ _ _ _ _ _ hmq,
          assetTotal_adjust_asset _ _ _ _ _ _ _ hmb,
          assetTotal_adjust_asset _ _ _ _ _ _ _ hmq,
          assetTotal_adjust_asset _ _ _ _ _ _ _ hmb,
          assetTotal_adjust_asset _ _ _ _ _ _ _ hmb,
          assetTotal_adjust_asset _ _ _ _ _ _ _ hmq]

theorem assetTotal_applyLedgerOp (accts : List Account) (m : Asset)
    (led : Ledger) (op : LedgerOp)
    (hnd : accts.Nodup) (hmem : ∀ a ∈ opAccounts op, a ∈ accts) :
    assetTotal accts m (applyLedgerOp led op) = assetTotal accts m led := by
  cases op with
  | reserveOp a am amt =>
    by_cases h : (led a am).available < amt
    · simp [applyLedgerOp, reserve, h]
    · simp only [applyLedgerOp, reserve, if_neg h]
      exact assetTotal_adjust_zero _ _ _ _ _ _ _ (by ring)
  | releaseOp a am amt =>
    by_cases h : (led a am).locked < amt
    · simp [applyLedgerOp, release, h]
    · simp only [applyLedgerOp, release, if_neg h, Option.getD_some]
      exact assetTotal_adjust_zero _ _ _ _ _ _ _ (by ring)
  | fillOp buyer seller feeAccount base quote price qty feeBase feeQuote =>
    by_cases h1 : base = quote
    · simp [applyLedgerOp, settle_fill, h1]
    · by_cases h2 : feeBase < 0 ∨ qty < feeBase ∨ feeQuote < 0 ∨ price * qty < feeQuote
      · simp [applyLedgerOp, settle_fill, h1, h2]
      · by_cases h3 : (led buyer quote).locked < price * qty ∨ (led seller base).locked < qty
        · simp [applyLedgerOp, settle_fill, h1, h2, h3]
        · simp only [applyLedgerOp, settle_fill, if_neg h1, if_neg h2, if_neg h3,
            Option.getD_some]
          apply assetTotal_settleFillCore
          · exact hnd
          · exact hmem buyer (by simp [opAccounts])
          · exact hmem seller (by simp [opAccounts])
          · exact hmem feeAccount (by simp [opAccounts])
          · exact h1

theorem assetTotal_foldl (accts : List Account) (m : Asset)
    (led : Ledger) (ops : List LedgerOp)
    (hnd : accts.Nodup)
    (hmem : ∀ op ∈ ops, ∀ a ∈ opAccounts op, a ∈ accts) :
    assetTotal accts m (ops.foldl applyLedgerOp led) = assetTotal accts m led := by
  induction ops generalizing led with
  | nil => rfl
  | cons op rest ih =>
    simp only [List.foldl_cons]
    rw [ih (applyLedgerOp led op) fun o ho => hmem o (List.mem_cons_of_mem _ ho)]
    exact assetTotal_applyLedgerOp accts m led op hnd (hmem op (List.mem_cons_self _ _))

/-! ### Order book and matcher (spec 4.2-4.3, `orderbook.rs`, `matcher.rs`) -/

theorem matchLevel_mem_fills (q p : ℤ) (os : List RestingOrder) (f : Fill)
    (hf : f ∈ (matchLevel q p os).1) :
    f.price = p ∧ f.restingId ∈ os.map RestingOrder.id := by
  induction os generalizing q with
  | nil => simp [matchLevel] at hf
  | cons o rest ih =>
    unfold matchLevel at hf
    by_cases h0 : q ≤ 0
    · simp [h0] at hf
    · rw [if_neg h0] at hf
      by_cases h1 : o.qty ≤ q
      · rw [if_pos h1] at hf
        rcases List.mem_cons.mp hf with rfl | hmem
        · exact ⟨rfl, by simp⟩
        · obtain ⟨hp, hid⟩ := ih (q - o.qty) hmem
          exact ⟨hp, by simp [hid]⟩
      · rw [if_neg h1] at hf
        rcases List.mem_cons.mp hf with rfl | hmem
        · exact ⟨rfl, by simp⟩
        · simp at hmem

theorem matchSide_mem_fills (inc : IncomingOrder) (q : ℤ) (ls : List PriceLevel)
    (f : Fill) (hf : f ∈ (matchSide inc q ls).1) :
    ∃ l, l ∈ ls ∧ f.price = l.price ∧ f.restingId ∈ l.orders.map RestingOrder.id := by
  induction ls generalizing q with
  | nil => simp [matchSide] at hf
  | cons l ls ih =>
    unfold matchSide at hf
    by_cases hstop : q ≤ 0 ∨ crossesAt inc l.price = false
    · rw [if_pos hstop] at hf
      simp at hf
    · rw [if_neg hstop] at hf
      simp only at hf
      by_cases hempty : (matchLevel q l.price l.orders).2.1.isEmpty
      · rw [if_pos hempty] at hf
        rcases List.mem_append.mp hf with hmem | hmem
        · obtain ⟨hp, hid⟩ := matchLevel_mem_fills _ _ _ _ hmem
          exact ⟨l, List.mem_cons_self _ _, hp, hid⟩
        · obtain ⟨l', hl', hp, hid⟩ := ih _ hmem
          exact ⟨l', List.mem_cons_of_mem _ hl', hp, hid⟩
      · rw [if_neg hempty] at hf
        obtain ⟨hp, hid⟩ := matchLevel_mem_fills _ _ _ _ hf
        exact ⟨l, List.mem_cons_self _ _, hp, hid⟩

theorem matchLevel_ids_pre (q p : ℤ) (os : List RestingOrder) :
    ∃ t, (matchLevel q p os).1.map Fill.restingId ++ t = os.map RestingOrder.id := by
  induction os generalizing q with
  | nil => exact ⟨[], rfl⟩
  | cons o rest ih =>
    unfold matchLevel
    by_cases h0 : q ≤ 0
    · exact ⟨(o :: rest).map RestingOrder.id, by simp [h0]⟩
    · rw [if_neg h0]
      by_cases h1 : o.qty ≤ q
      · rw [if_pos h1]
        obtain ⟨t, ht⟩ := ih (q - o.qty)
        exact ⟨t, by simp [ht]⟩
      · rw [if_neg h1]
        exact ⟨rest.map RestingOrder.id, by simp⟩

theorem matchLevel_ids_all (q p : ℤ) (os : List RestingOrder)
    (h : (matchLevel q p os).2.1 = []) :
    (matchLevel q p os).1.map Fill.restingId = os.map RestingOrder.id := by
  induction os generalizing q with
  | nil => rfl
  | cons o rest ih =>
    unfold matchLevel at h ⊢
    by_cases h0 : q ≤ 0
    · rw [if_pos h0] at h
      cases h
    · rw [if_neg h0] at h ⊢
      by_cases h1 : o.qty ≤ q
      · rw [if_pos h1] at h ⊢
        simp only [List.map_cons]
        rw [ih (q - o.qty) h]
      · rw [if_neg h1] at h
        cases h

theorem matchSide_ids_pre (inc : IncomingOrder) (q : ℤ) (ls : List PriceLevel) :
    ∃ t, (matchSide inc q ls).1.map Fill.restingId ++ t = sideIds ls := by
  induction ls generalizing q with
  | nil => exact ⟨[], rfl⟩
  | cons l ls ih =>
    unfold matchSide sideIds
    by_cases hstop : q ≤ 0 ∨ crossesAt inc l.price = false
    · exact ⟨l.orders.map RestingOrder.id ++ sideIds ls, by simp [hstop]⟩
    · rw [if_neg hstop]
      simp only
      by_cases hempty : (matchLevel q l.price l.orders).2.1.isEmpty
      · rw [if_pos hempty]
        obtain ⟨t, ht⟩ := ih (matchLevel q l.price l.orders).2.2
        refine ⟨t, ?_⟩
        have hall := matchLevel_ids_all q l.price l.orders
          (List.isEmpty_iff.mp hempty)
        simp only [List.map_append, List.append_assoc]
        rw [hall, ht]
      · rw [if_neg hempty]
        obtain ⟨t, ht⟩ := matchLevel_ids_pre q l.price l.orders
        exact ⟨t ++ sideIds ls, by rw [← List.append_assoc, ht]⟩

theorem matchLevel_fifo (q p : ℤ) (os : List RestingOrder)
    (hpos : ∀ o ∈ os, 0 < o.qty) (hsum : (os.map RestingOrder.qty).sum ≤ q) :
    matchLevel q p os =
      (os.map fun o => ⟨o.id, p, o.qty⟩, [], q - (os.map RestingOrder.qty).sum) := by
  induction os generalizing q with
  | nil => simp [matchLevel]
  | cons o rest ih =>
    have hop : 0 < o.qty := hpos o (List.mem_cons_self _ _)
    have hrest : 0 ≤ (rest.map RestingOrder.qty).sum := by
      apply List.sum_nonneg
      intro x hx
      obtain ⟨y, hy, rfl⟩ := List.mem_map.mp hx
      exact le_of_lt (hpos y (List.mem_cons_of_mem _ hy))
    have hsum' : o.qty + (rest.map RestingOrder.qty).sum ≤ q := by
      simpa using hsum
    have h0 : ¬ q ≤ 0 := by omega
    have h1 : o.qty ≤ q := by omega
    unfold matchLevel
    rw [if_neg h0, if_pos h1]
    rw [ih (q - o.qty) (fun x hx => hpos x (List.mem_cons_of_mem _ hx)) (by omega)]
    simp only [List.map_cons, List.sum_cons]
    refine congrArg₂ _ rfl (congrArg₂ _ rfl ?_)
    ring

theorem matchLevel_leftover_ids (q p : ℤ) (os : List RestingOrder) (i : Nat)
    (hi : i ∈ (matchLevel q p os).2.1.map RestingOrder.id) :
    i ∈ os.map RestingOrder.id := by
  induction os generalizing q with
  | nil => simp [matchLevel] at hi
  | cons o rest ih =>
    unfold matchLevel at hi
    by_cases h0 : q ≤ 0
    · rw [if_pos h0] at hi
      exact hi
    · rw [if_neg h0] at hi
      by_cases h1 : o.qty ≤ q
      · rw [if_pos h1] at hi
        exact List.mem_cons_of_mem _ (ih (q - o.qty) hi)
      · rw [if_neg h1] at hi
        simpa using hi

theorem matchSide_leftover_ids (inc : IncomingOrder) (q : ℤ) (ls : List PriceLevel)
    (i : Nat) (hi : i ∈ sideIds (matchSide inc q ls).2.1) :
    i ∈ sideIds ls := by
  induction ls generalizing q with
  | nil => simpa [matchSide] using hi
  | cons l ls ih =>
    unfold matchSide at hi
    by_cases hstop : q ≤ 0 ∨ crossesAt inc l.price = false
    · rw [if_pos hstop] at hi
      exact hi
    · rw [if_neg hstop] at hi
      simp only at hi
      by_cases hempty : (matchLevel q l.price l.orders).2.1.isEmpty
      · rw [if_pos hempty] at hi
        unfold sideIds
        exact List.mem_append_right _ (ih _ hi)
      · rw [if_neg hempty] at hi
        unfold sideIds at hi ⊢
        rcases List.mem_append.mp hi with hmem | hmem
        · exact List.mem_append_left _ (matchLevel_leftover_ids _ _ _ _ hmem)
        · exact List.mem_append_right _ hmem

/-! ### Order lifecycle (spec 3, `005_create_user_balances.sql` orders table) -/

theorem adjust_ne (led : Ledger) (a : Account) (m : Asset) (da dl : ℤ)
    (a' : Account) (m' : Asset) (h : ¬(a' = a ∧ m' = m)) :
    adjust led a m da dl a' m' = led a' m' := by
  rw [adjust_apply, if_neg h]

theorem adjust_eq (led : Ledger) (a : Account) (m : Asset) (da dl : ℤ) :
    adjust led a m da dl a m =
      ⟨(led a m).available + da, (led a m).locked + dl⟩ := by
  rw [adjust_apply, if_pos ⟨rfl, rfl⟩]

theorem settleFillCore_buyer_quote (led : Ledger)
    (buyer seller feeAccount : Account) (base quote : Asset)
    (price qty feeBase feeQuote : ℤ)
    (hbs : buyer ≠ seller) (hbf : buyer ≠ feeAccount) (hbq : base ≠ quote) :
    settleFillCore led buyer seller feeAccount base quote price qty feeBase feeQuote
        buyer quote =
      ⟨(led buyer quote).available, (led buyer quote).locked - price * qty⟩ := by
  unfold settleFillCore
  rw [adjust_ne _ _ _ _ _ _ _ (fun h => hbf h.1),
      adjust_ne _ _ _ _ _ _ _ (fun h => hbf h.1),
      adjust_ne _ _ _ _ _ _ _ (fun h => hbs h.1),
      adjust_ne _ _ _ _ _ _ _ (fun h => hbs h.1),
      adjust_ne _ _ _ _ _ _ _ (fun h => hbq h.2.symm),
      adjust_eq]
  simp [sub_eq_add_neg]

theorem settleFillCore_buyer_base (led : Ledger)
    (buyer seller feeAccount : Account) (base quote : Asset)
    (price qty feeBase feeQuote : ℤ)
    (hbs : buyer ≠ seller) (hbf : buyer ≠ feeAccount) (hbq : base ≠ quote) :
    settleFillCore led buyer seller feeAccount base quote price qty feeBase feeQuote
        buyer base =
      ⟨(led buyer base).available + (qty - feeBase), (led buyer base).locked⟩ := by
  unfold settleFillCore
  rw [adjust_ne _ _ _ _ _ _ _ (fun h => hbf h.1),
      adjust_ne _ _ _ _ _ _ _ (fun h => hbf h.1),
      adjust_ne _ _ _ _ _ _ _ (fun h => hbs h.1),
      adjust_ne _ _ _ _ _ _ _ (fun h => hbs h.1),
      adjust_eq,
      adjust_ne _ _ _ _ _ _ _ (fun h => hbq h.2)]
  simp

theorem settleFillCore_seller_base (led : Ledger)
    (buyer seller feeAccount : Account) (base quote : Asset)
    (price qty feeBase feeQuote : ℤ)
    (hbs : buyer ≠ seller) (hsf : seller ≠ feeAccount) (hbq : base ≠ quote) :
    settleFillCore led buyer seller feeAccount base quote price qty feeBase feeQuote
        seller base =
      ⟨(led seller base).available, (led seller base).locked - qty⟩ := by
  unfold settleFillCore
  rw [adjust_ne _ _ _ _ _ _ _ (fun h => hsf h.1),
      adjust_ne _ _ _ _ _ _ _ (fun h => hsf h.1),
      adjust_ne _ _ _ _ _ _ _ (fun h => hbq h.2),
      adjust_eq,
      adjust_ne _ _ _ _ _ _ _ (fun h => hbs h.1.symm),
      adjust_ne _ _ _ _ _ _ _ (fun h => hbs h.1.symm)]
  simp [sub_eq_add_neg]

theorem settleFillCore_seller_quote (led : Ledger)
    (buyer seller feeAccount : Account) (base quote : Asset)
    (price qty feeBase feeQuote : ℤ)
    (hbs : buyer ≠ seller) (hsf : seller ≠ feeAccount) (hbq : base ≠ quote) :
    settleFillCore led buyer seller feeAccount base quote price qty feeBase feeQuote
        seller quote =
      ⟨(led seller quote).available + (price * qty - feeQuote),
        (led seller quote).locked⟩ := by
  unfold settleFillCore
  rw [adjust_ne _ _ _ _ _ _ _ (fun h => hsf h.1),
      adjust_ne _ _ _ _ _ _ _ (fun h => hsf h.1),
      adjust_eq,
      adjust_ne _ _ _ _ _ _ _ (fun h => hbq h.2.symm),
      adjust_ne _ _ _ _ _ _ _ (fun h => hbs h.1.symm),
      adjust_ne _ _ _ _ _ _ _ (fun h => hbs h.1.symm)]
  simp

theorem settleFillCore_fee_base (led : Ledger)
    (buyer seller feeAccount : Account) (base quote : Asset)
    (price qty feeBase feeQuote : ℤ)
    (hbf : buyer ≠ feeAccount) (hsf : seller ≠ feeAccount) (hbq : base ≠ quote) :
    settleFillCore led buyer seller feeAccount base quote price qty feeBase feeQuote
        feeAccount base =
      ⟨(led feeAccount base).available + feeBase, (led feeAccount base).locked⟩ := by
  unfold settleFillCore
  rw [adjust_ne _ _ _ _ _ _ _ (fun h => hbq h.2),
      adjust_eq,
      adjust_ne _ _ _ _ _ _ _ (fun h => hsf h.1.symm),
      adjust_ne _ _ _ _ _ _ _ (fun h => hsf h.1.symm),
      adjust_ne _ _ _ _ _ _ _ (fun h => hbf h.1.symm),
      adjust_ne _ _ _ _ _ _ _ (fun h => hbf h.1.symm)]
  simp

theorem settleFillCore_fee_quote (led : Ledger)
    (buyer seller feeAccount : Account) (base quote : Asset)
    (price qty feeBase feeQuote : ℤ)
    (hbf : buyer ≠ feeAccount) (hsf : seller ≠ feeAccount) (hbq : base ≠ quote) :
    settleFillCore led buyer seller feeAccount base quote price qty feeBase feeQuote
        feeAccount quote =
      ⟨(led feeAccount quote).available + feeQuote,
        (led feeAccount quote).locked⟩ := by
  unfold settleFillCore
  rw [adjust_eq,
      adjust_ne _ _ _ _ _ _ _ (fun h => hbq h.2.symm),
      adjust_ne _ _ _ _ _ _ _ (fun h => hsf h.1.symm),
      adjust_ne _ _ _ _ _ _ _ (fun h => hsf h.1.symm),
      adjust_ne _ _ _ _ _ _ _ (fun h => hbf h.1.symm),
      adjust_ne _ _ _ _ _ _ _ (fun h => hbf h.1.symm)]
  simp

theorem settleFillCore_untouched (led : Ledger)
    (buyer seller feeAccount : Account) (base quote : Asset)
    (price qty feeBase feeQuote : ℤ) (a : Account) (m : Asset)
    (h : (a ≠ buyer ∧ a ≠ seller ∧ a ≠ feeAccount) ∨ (m ≠ base ∧ m ≠ quote)) :
    settleFillCore led buyer seller feeAccount base quote price qty feeBase feeQuote
        a m = led a m := by
  unfold settleFillCore
  rcases h with ⟨h1, h2, h3⟩ | ⟨h1, h2⟩
  · rw [adjust_ne _ _ _ _ _ _ _ (fun h => h3 h.1),
        adjust_ne _ _ _ _ _ _ _ (fun h => h3 h.1),
        adjust_ne _ _ _ _ _ _ _ (fun h => h2 h.1),
        adjust_ne _ _ _ _ _ _ _ (fun h => h2 h.1),
        adjust_ne _ _ _ _ _ _ _ (fun h => h1 h.1),
        adjust_ne _ _ _ _ _ _ _ (fun h => h1 h.1)]
  · rw [adjust_ne _ _ _ _ _ _ _ (fun h => h2 h.2),
        adjust_ne _ _ _ _ _ _ _ (fun h => h1 h.2),
        adjust_ne _ _ _ _ _ _ _ (fun h => h2 h.2),
        adjust_ne _ _ _ _ _ _ _ (fun h => h1 h.2),
        adjust_ne _ _ _ _ _ _ _ (fun h => h1 h.2),
        adjust_ne _ _ _ _ _ _ _ (fun h => h2 h.2)]

theorem nonneg_settleFillCore (led : Ledger)
    (buyer seller feeAccount : Account) (base quote : Asset)
    (price qty feeBase feeQuote : ℤ)
    (hled : NonnegLedger led)
    (hfb0 : 0 ≤ feeBase) (hfb1 : feeBase ≤ qty)
    (hfq0 : 0 ≤ feeQuote) (hfq1 : feeQuote ≤ price * qty)
    (hlb : price * qty ≤ (led buyer quote).locked)
    (hls : qty ≤ (led seller base).locked)
    (hbs : buyer ≠ seller) (hbf : buyer ≠ feeAccount) (hsf : seller ≠ feeAccount)
    (hbq : base ≠ quote) :
    NonnegLedger
      (settleFillCore led buyer seller feeAccount base quote price qty feeBase feeQuote) := by
  intro a m
  by_cases hab : a = buyer
  · subst hab
    by_cases hmq : m = quote
    · subst hmq
      rw [settleFillCore_buyer_quote _ _ _ _ _ _ _ _ _ _ hbs hbf hbq]
      have := hled a m
      constructor
      · exact this.1
      · simp only
        omega
    · by_cases hmb : m = base
      · subst hmb
        rw [settleFillCore_buyer_base _ _ _ _ _ _ _ _ _ _ hbs hbf hbq]
        have := hled a m
        constructor
        · simp only
          omega
        · exact this.2
      · rw [settleFillCore_untouched _ _ _ _ _ _ _ _ _ _ _ _ (Or.inr ⟨hmb, hmq⟩)]
        exact hled _ _
  · by_cases has : a = seller
    · subst has
      by_cases hmb : m = base
      · subst hmb
        rw [settleFillCore_seller_base _ _ _ _ _ _ _ _ _ _ hbs hsf hbq]
        have := hled a m
        constructor
        · exact this.1
        · simp only
          omega
      · by_cases hmq : m = quote
        · subst hmq
          rw [settleFillCore_seller_quote _ _ _ _ _ _ _ _ _ _ hbs hsf hbq]
          have := hled a m
          constructor
          · simp only
            omega
          · exact this.2
        · rw [settleFillCore_untouched _ _ _ _ _ _ _ _ _ _ _ _ (Or.inr ⟨hmb, hmq⟩)]
          exact hled _ _
    · by_cases haf : a = feeAccount
      · subst haf
        by_cases hmb : m = base
        · subst hmb
          rw [settleFillCore_fee_base _ _ _ _ _ _ _ _ _ _ hbf hsf hbq]
          have := hled a m
          constructor
          · simp only
            omega
          · exact this.2
        · by_cases hmq : m = quote
          · subst hmq
            rw [settleFillCore_fee_quote _ _ _ _ _ _ _ _ _ _ hbf hsf hbq]
            have := hled a m
            constructor
            · simp only
              omega
            · exact this.2
          · rw [settleFillCore_untouched _ _ _ _ _ _ _ _ _ _ _ _ (Or.inr ⟨hmb, hmq⟩)]
            exact hled _ _
      · rw [settleFillCore_untouched _ _ _ _ _ _ _ _ _ _ _ _ (Or.inl ⟨hab, has, haf⟩)]
        exact hled _ _

theorem oppositeLevels_withOpposite (b : OrderBook) (s : Side) (ls : List PriceLevel) :
    oppositeLevels (withOpposite b s ls) s = ls := by
  cases s <;> rfl

theorem sameLevels_withOpposite (b : OrderBook) (s : Side) (ls : List PriceLevel) :
    sameLevels (withOpposite b s ls) s = sameLevels b s := by
  cases s <;> rfl

theorem pairwise_of_all_eq {r : ℤ → ℤ → Prop} {L : List ℤ} {c : ℤ}
    (h : ∀ x ∈ L, x = c) : L.Pairwise (fun x y => x = y ∨ r x y) := by
  induction L with
  | nil => exact List.Pairwise.nil
  | cons x xs ih =>
    refine List.Pairwise.cons ?_ (ih fun y hy => h y (List.mem_cons_of_mem _ hy))
    intro y hy
    left
    rw [h x (List.mem_cons_self _ _), h y (List.mem_cons_of_mem _ hy)]

theorem matchSide_fills_prices (r : ℤ → ℤ → Prop) (inc : IncomingOrder)
    (q : ℤ) (ls : List PriceLevel)
    (hsort : (ls.map PriceLevel.price).Pairwise r) :
    ((matchSide inc q ls).1.map Fill.price).Pairwise (fun x y => x = y ∨ r x y) := by
  induction ls generalizing q with
  | nil => exact List.Pairwise.nil
  | cons l ls ih =>
    rw [List.map_cons, List.pairwise_cons] at hsort
    unfold matchSide
    by_cases hstop : q ≤ 0 ∨ crossesAt inc l.price = false
    · rw [if_pos hstop]
      exact List.Pairwise.nil
    · rw [if_neg hstop]
      dsimp only
      by_cases hempty : (matchLevel q l.price l.orders).2.1.isEmpty
      · rw [if_pos hempty]
        dsimp only
        rw [List.map_append, List.pairwise_append]
        refine ⟨?_, ih _ hsort.2, ?_⟩
        · apply pairwise_of_all_eq
          intro x hx
          obtain ⟨f, hf, rfl⟩ := List.mem_map.mp hx
          exact (matchLevel_mem_fills _ _ _ _ hf).1
        · intro a ha b hb
          obtain ⟨f, hf, rfl⟩ := List.mem_map.mp ha
          obtain ⟨g, hg, rfl⟩ := List.mem_map.mp hb
          obtain ⟨l', hl', hp, -⟩ := matchSide_mem_fills inc _ ls g hg
          right
          rw [(matchLevel_mem_fills _ _ _ _ hf).1, hp]
          exact hsort.1 l'.price (List.mem_map_of_mem _ hl')
      · rw [if_neg hempty]
        apply pairwise_of_all_eq
        intro x hx
        obtain ⟨f, hf, rfl⟩ := List.mem_map.mp hx
        exact (matchLevel_mem_fills _ _ _ _ hf).1

/-! ### Claim theorems -/

/-- C1: For every asset, the sum over all accounts of available plus
locked balance is unchanged by any sequence of submit (reserve), cancel
(release) and match (settle-fill) operations; for each fill the buyer's
locked-quote decrease equals the seller's available-quote increase plus
the quote-side fee, and the seller's locked-base decrease equals the
buyer's available-base increase plus the base-side fee, so no funds are
created or destroyed. -/
theorem fill_conservation
    (led : Ledger) (buyer seller feeAccount : Account) (base quote : Asset)
    (price qty feeBase feeQuote : ℤ) (led' : Ledger)
    (hset : settle_fill led buyer seller feeAccount base quote price qty feeBase feeQuote =
      some led')
    (hbs : buyer ≠ seller) (hbf : buyer ≠ feeAccount) (hsf : seller ≠ feeAccount) :
    ((led buyer quote).locked - (led' buyer quote).locked =
      ((led' seller quote).available - (led seller quote).available) + feeQuote) ∧
    ((led seller base).locked - (led' seller base).locked =
      ((led' buyer base).available - (led buyer base).available) + feeBase) ∧
    ∀ (accts : List Account) (m : Asset) (ops : List LedgerOp),
      accts.Nodup → (∀ op ∈ ops, ∀ a ∈ opAccounts op, a ∈ accts) →
      assetTotal accts m (ops.foldl applyLedgerOp led) = assetTotal accts m led := by
  unfold settle_fill at hset
  split_ifs at hset with h1 h2 h3
  injection hset with hset
  subst hset
  refine ⟨?_, ?_, ?_⟩
  · rw [settleFillCore_buyer_quote _ _ _ _ _ _ _ _ _ _ hbs hbf h1,
        settleFillCore_seller_quote _ _ _ _ _ _ _ _ _ _ hbs hsf h1]
    dsimp only
    ring
  · rw [settleFillCore_seller_base _ _ _ _ _ _ _ _ _ _ hbs hsf h1,
        settleFillCore_buyer_base _ _ _ _ _ _ _ _ _ _ hbs hbf h1]
    dsimp only
    ring
  · intro accts m ops hnd hmem
    exact assetTotal_foldl accts m _ ops hnd hmem

/-- C4: For every (account, asset) balance record, available ≥ 0 and
locked ≥ 0 hold after every ledger operation; reserve moves exactly the
requested amount from available to locked and fails atomically with
InsufficientFunds, changing nothing, when available < amount; and
releasing (cancelling an order) returns the full remaining locked amount
back to available. -/
theorem balance_record_invariants :
    (∀ (led : Ledger) (a : Account) (m : Asset) (amt : ℤ) (led' : Ledger),
      reserve led a m amt = .ok led' →
        (led' a m).available = (led a m).available - amt ∧
        (led' a m).locked = (led a m).locked + amt ∧
        (∀ a' m', ¬(a' = a ∧ m' = m) → led' a' m' = led a' m') ∧
        (0 ≤ amt → NonnegLedger led → NonnegLedger led')) ∧
    (∀ (led : Ledger) (a : Account) (m : Asset) (amt : ℤ),
      (led a m).available < amt →
        reserve led a m amt = .error .insufficientFunds ∧
        applyLedgerOp led (.reserveOp a m amt) = led) ∧
    (∀ (led : Ledger) (a : Account) (m : Asset) (amt : ℤ) (led' : Ledger),
      release led a m amt = some led' →
        (led' a m).available = (led a m).available + amt ∧
        (led' a m).locked = (led a m).locked - amt ∧
        (0 ≤ amt → NonnegLedger led → NonnegLedger led')) ∧
    (∀ (led : Ledger) (buyer seller feeAccount : Account) (base quote : Asset)
        (price qty feeBase feeQuote : ℤ) (led' : Ledger),
      settle_fill led buyer seller feeAccount base quote price qty feeBase feeQuote =
        some led' →
      buyer ≠ seller → buyer ≠ feeAccount → seller ≠ feeAccount →
      NonnegLedger led → NonnegLedger led') := by
  refine ⟨?_, ?_, ?_, ?_⟩
  · intro led a m amt led' h
    unfold reserve at h
    split_ifs at h with hc
    injection h with h
    subst h
    refine ⟨?_, ?_, ?_, ?_⟩
    · rw [adjust_eq]; dsimp only; ring
    · rw [adjust_eq]
    · intro a' m' hne; exact adjust_ne _ _ _ _ _ _ _ hne
    · intro hamt hn x y
      by_cases hxy : x = a ∧ y = m
      · obtain ⟨rfl, rfl⟩ := hxy
        rw [adjust_eq]
        have := hn x y
        constructor
        · dsimp only; omega
        · dsimp only; omega
      · rw [adjust_ne _ _ _ _ _ _ _ hxy]
        exact hn x y
  · intro led a m amt hc
    constructor
    · unfold reserve
      rw [if_pos hc]
    · simp [applyLedgerOp, reserve, hc]
  · intro led a m amt led' h
    unfold release at h
    split_ifs at h with hc
    injection h with h
    subst h
    refine ⟨?_, ?_, ?_⟩
    · rw [adjust_eq]
    · rw [adjust_eq]; dsimp only; ring
    · intro hamt hn x y
      by_cases hxy : x = a ∧ y = m
      · obtain ⟨rfl, rfl⟩ := hxy
        rw [adjust_eq]
        have := hn x y
        constructor
        · dsimp only; omega
        · dsimp only; omega
      · rw [adjust_ne _ _ _ _ _ _ _ hxy]
        exact hn x y
  · intro led buyer seller feeAccount base quote price qty feeBase feeQuote led' h
    intro hbs hbf hsf hn
    unfold settle_fill at h
    split_ifs at h with h1 h2 h3
    injection h with h
    subst h
    push_neg at h2 h3
    exact nonneg_settleFillCore led buyer seller feeAccount base quote price qty
      feeBase feeQuote hn h2.1 h2.2.1 h2.2.2.1 h2.2.2.2 h3.1 h3.2 hbs hbf hsf h1

/-- C2: Every fill produced by matching carries the resting (maker)
order's price — the price of the book level the resting order sat in —
never the incoming (taker) order's price, even when the incoming limit
price differs, and the Trade record constructed from the fill copies that
price. -/
theorem maker_price_invariant (inc : IncomingOrder) (q : ℤ)
    (ls : List PriceLevel) (f : Fill) (hf : f ∈ (matchSide inc q ls).1) :
    ∃ l, l ∈ ls ∧ f.price = l.price ∧ f.restingId ∈ l.orders.map RestingOrder.id ∧
      (inc.price ≠ l.price → f.price ≠ inc.price) ∧
      ∀ bo so bu se, (mkTrade bo so bu se f).price = f.price := by
  obtain ⟨l, hl, hp, hid⟩ := matchSide_mem_fills inc q ls f hf
  refine ⟨l, hl, hp, hid, ?_, fun _ _ _ _ => rfl⟩
  intro hne
  rw [hp]
  exact fun h => hne h.symm

/-- C3: Matching consumes opposite-side resting orders in strict
price-time priority — the fills' resting-order ids always form a prefix
of the book side flattened in priority order (best price level first,
FIFO within a level) — and, in particular, for any list of resting orders
at one price, one large enough incoming order fills them exactly in
arrival order. -/
theorem price_time_priority :
    (∀ (inc : IncomingOrder) (q : ℤ) (ls : List PriceLevel),
      ∃ t, (matchSide inc q ls).1.map Fill.restingId ++ t = sideIds ls) ∧
    (∀ (r : ℤ → ℤ → Prop) (inc : IncomingOrder) (q : ℤ) (ls : List PriceLevel),
      (ls.map PriceLevel.price).Pairwise r →
      ((matchSide inc q ls).1.map Fill.price).Pairwise (fun x y => x = y ∨ r x y)) ∧
    (∀ (inc : IncomingOrder) (q p : ℤ) (os : List RestingOrder),
      crossesAt inc p = true → (∀ o ∈ os, 0 < o.qty) →
      (os.map RestingOrder.qty).sum ≤ q →
      (matchSide inc q [⟨p, os⟩]).1 = os.map fun o => ⟨o.id, p, o.qty⟩) := by
  refine ⟨matchSide_ids_pre, matchSide_fills_prices, ?_⟩
  · intro inc q p os hcross hpos hsum
    by_cases h0 : q ≤ 0
    · have hos : os = [] := by
        cases os with
        | nil => rfl
        | cons o rest =>
          exfalso
          have ho := hpos o (List.mem_cons_self _ _)
          have hrest : 0 ≤ (rest.map RestingOrder.qty).sum := by
            apply List.sum_nonneg
            intro x hx
            obtain ⟨y, hy, rfl⟩ := List.mem_map.mp hx
            exact le_of_lt (hpos y (List.mem_cons_of_mem _ hy))
          simp only [List.map_cons, List.sum_cons] at hsum
          omega
      subst hos
      simp [matchSide, h0]
    · unfold matchSide
      rw [if_neg (by simp [hcross, h0])]
      dsimp only
      rw [matchLevel_fifo q p os hpos hsum]
      simp [matchSide]

/-- C5: For every order, the filled quantity never exceeds the original
quantity, and the status only moves forward: pending may become
partially-filled, filled or cancelled; partially-filled may become filled
or cancelled; and once an order is filled or cancelled its status never
changes again. -/
theorem order_status_monotonic :
    (∀ (o : LifeOrder) (q : ℤ) (o' : LifeOrder),
      applyFill o q = some o' →
        o'.amount = o.amount ∧ o'.filledAmount ≤ o'.amount ∧
        o.filledAmount < o'.filledAmount ∧ statusStep o.status o'.status) ∧
    (∀ (o o' : LifeOrder), applyCancel o = some o' →
        o'.status = .cancelled ∧ statusStep o.status o'.status) ∧
    (∀ (o : LifeOrder) (q : ℤ), terminalStatus o.status = true →
        applyFill o q = none ∧ applyCancel o = none) := by
  refine ⟨?_, ?_, ?_⟩
  · intro o q o' h
    unfold applyFill at h
    split_ifs at h with ht hg hfull
    · injection h with h
      subst h
      push_neg at hg
      refine ⟨rfl, by dsimp only; omega, by dsimp only; omega, ?_⟩
      dsimp only
      cases hos : o.status with
      | pending => simp [statusStep]
      | partiallyFilled => simp [statusStep]
      | filled => rw [hos] at ht; simp [terminalStatus] at ht
      | cancelled => rw [hos] at ht; simp [terminalStatus] at ht
    · injection h with h
      subst h
      push_neg at hg
      refine ⟨rfl, by dsimp only; omega, by dsimp only; omega, ?_⟩
      dsimp only
      cases hos : o.status with
      | pending => simp [statusStep]
      | partiallyFilled => simp [statusStep]
      | filled => rw [hos] at ht; simp [terminalStatus] at ht
      | cancelled => rw [hos] at ht; simp [terminalStatus] at ht
  · intro o o' h
    unfold applyCancel at h
    split_ifs at h with ht
    injection h with h
    subst h
    refine ⟨rfl, ?_⟩
    cases hos : o.status with
    | pending => simp [statusStep]
    | partiallyFilled => simp [statusStep]
    | filled => rw [hos] at ht; simp [terminalStatus] at ht
    | cancelled => rw [hos] at ht; simp [terminalStatus] at ht
  · intro o q ht
    constructor
    · unfold applyFill
      rw [if_pos ht]
    · unfold applyCancel
      rw [if_pos ht]

/-- C8: CancelOrder invoked on an order that is already cancelled or
already fully filled returns a defined error, never a silent success, and
leaves the open orders and the balance ledger unchanged — the order's
formerly locked funds are never released a second time. -/
theorem cancel_already_terminal (orders : List EngOrder) (led : Ledger)
    (uid oid : Nat) (o : EngOrder)
    (hfind : orders.find? (fun x => decide (x.id = oid)) = some o) :
    (terminalStatus o.status = true →
      ∃ e, cancelOrder orders led uid oid = (.error e, orders, led)) ∧
    (∀ r rest, cancelOrder orders led uid oid = (.ok r, rest) →
      terminalStatus o.status = false) := by
  constructor
  · intro ht
    by_cases hu : o.userId ≠ uid
    · refine ⟨.notOwner, ?_⟩
      simp only [cancelOrder, hfind]
      rw [if_pos hu]
    · refine ⟨.alreadyTerminal, ?_⟩
      simp only [cancelOrder, hfind]
      rw [if_neg hu, if_pos ht]
  · intro r rest h
    by_cases ht : terminalStatus o.status = true
    · exfalso
      simp only [cancelOrder, hfind] at h
      by_cases hu : o.userId ≠ uid
      · rw [if_pos hu] at h
        simp at h
      · rw [if_neg hu, if_pos ht] at h
        simp at h
    · cases hb : terminalStatus o.status
      · rfl
      · exact absurd hb ht

theorem walSeqOk_append (wal : List (Nat × WalEntry)) (n : Nat) (e : WalEntry)
    (h1 : List.Chain' (· < ·) (wal.map Prod.fst))
    (h2 : ∀ s ∈ wal.map Prod.fst, s < n) :
    List.Chain' (· < ·) ((wal ++ [(n, e)]).map Prod.fst) ∧
      ∀ s ∈ (wal ++ [(n, e)]).map Prod.fst, s < n + 1 := by
  constructor
  · rw [List.map_append, List.chain'_append]
    refine ⟨h1, List.chain'_singleton _, ?_⟩
    intro x hx y hy
    simp only [List.map_cons, List.map_nil, List.head?_cons, Option.mem_def,
      Option.some.injEq] at hy
    subst hy
    exact h2 x (List.mem_of_mem_getLast? hx)
  · intro s hs
    rw [List.map_append, List.mem_append] at hs
    rcases hs with hs | hs
    · exact Nat.lt_succ_of_lt (h2 s hs)
    · simp only [List.map_cons, List.map_nil, List.mem_singleton] at hs
      subst hs
      exact Nat.lt_succ_self _

/-- C6: For every state-changing command (SubmitOrder, CancelOrder) the
engine appends a WAL entry carrying a strictly increasing sequence number
as the first action of the iteration — before any order-book or ledger
mutation — and responds to the caller only afterwards; every mutation is
preceded by the WAL append, and read-only queries produce no WAL
entry. -/
theorem wal_written_before_mutation (st : EngineState) (c : EngCommand) :
    (isMutating c = true →
      (∃ e, (engineStep st c).1.wal = st.wal ++ [(st.nextSeq, e)] ∧
        (engineStep st c).2.head? = some (.walAppend st.nextSeq e)) ∧
      (engineStep st c).1.nextSeq = st.nextSeq + 1 ∧
      mutationsLogged (engineStep st c).2 = true ∧
      (engineStep st c).2.getLast? = some .respond) ∧
    (isMutating c = false →
      (engineStep st c).1.wal = st.wal ∧ (engineStep st c).2 = [.respond]) ∧
    (WalSeqOk st → WalSeqOk (engineStep st c).1) := by
  cases c with
  | submitOrder inc =>
    refine ⟨fun _ => ⟨⟨.orderAccepted inc.id, rfl, rfl⟩, rfl, rfl, rfl⟩,
      fun h => by simp [isMutating] at h, fun hok => ?_⟩
    exact walSeqOk_append st.wal st.nextSeq _ hok.1 hok.2
  | cancelOrderCmd uid oid =>
    refine ⟨fun _ => ⟨⟨.orderCancelled oid, rfl, rfl⟩, rfl, rfl, rfl⟩,
      fun h => by simp [isMutating] at h, fun hok => ?_⟩
    exact walSeqOk_append st.wal st.nextSeq _ hok.1 hok.2
  | getOrderBook =>
    exact ⟨fun h => by simp [isMutating] at h, fun _ => ⟨rfl, rfl⟩, fun hok => hok⟩
  | getBalance a m =>
    exact ⟨fun h => by simp [isMutating] at h, fun _ => ⟨rfl, rfl⟩, fun hok => hok⟩

/-- C7: Submitting a market order against an empty opposite book side
yields zero fills and the distinct `noLiquidity` outcome (different from
success and from partial fill), and a market order never rests: its own
side of the book is unchanged and the opposite side only loses orders —
in particular the unmatched remainder is rejected rather than
inserted. -/
theorem market_order_never_rests (b : OrderBook) (inc : IncomingOrder)
    (hk : inc.kind = .market) :
    ((oppositeLevels b inc.side).isEmpty = true →
      processSubmit b inc = (⟨.noLiquidity, [], inc.qty⟩, b)) ∧
    (SubmitOutcome.noLiquidity ≠ SubmitOutcome.success ∧
      SubmitOutcome.noLiquidity ≠ SubmitOutcome.partialFill) ∧
    ((processSubmit b inc).1.outcome ≠ .rested) ∧
    sameLevels (processSubmit b inc).2 inc.side = sameLevels b inc.side ∧
    (∀ i, i ∈ sideIds (oppositeLevels (processSubmit b inc).2 inc.side) →
      i ∈ sideIds (oppositeLevels b inc.side)) := by
  refine ⟨?_, ⟨by decide, by decide⟩, ?_, ?_, ?_⟩
  · intro hemp
    simp only [processSubmit, hk]
    rw [if_pos hemp]
  · simp only [processSubmit, hk]
    by_cases hemp : (oppositeLevels b inc.side).isEmpty
    · rw [if_pos hemp]
      simp
    · rw [if_neg hemp]
      by_cases hr : (matchSide inc inc.qty (oppositeLevels b inc.side)).2.2 ≤ 0
      · rw [if_pos hr]
        simp
      · rw [if_neg hr]
        simp
  · simp only [processSubmit, hk]
    by_cases hemp : (oppositeLevels b inc.side).isEmpty
    · rw [if_pos hemp]
    · rw [if_neg hemp]
      by_cases hr : (matchSide inc inc.qty (oppositeLevels b inc.side)).2.2 ≤ 0
      · rw [if_pos hr]
        exact sameLevels_withOpposite b inc.side _
      · rw [if_neg hr]
        exact sameLevels_withOpposite b inc.side _
  · intro i hi
    simp only [processSubmit, hk] at hi
    by_cases hemp : (oppositeLevels b inc.side).isEmpty
    · rw [if_pos hemp] at hi
      exact hi
    · rw [if_neg hemp] at hi
      by_cases hr : (matchSide inc inc.qty (oppositeLevels b inc.side)).2.2 ≤ 0
      · rw [if_pos hr] at hi
        rw [oppositeLevels_withOpposite] at hi
        exact matchSide_leftover_ids inc inc.qty _ i hi
      · rw [if_neg hr] at hi
        rw [oppositeLevels_withOpposite] at hi
        exact matchSide_leftover_ids inc inc.qty _ i hi

/-- C9: At the order-creation interface a market buy is specified by a
quote-asset amount (`quote_amount`), not a base quantity, so the stored
order's base amount may be 0; for such an order the client determines
completion by `filled_amount > 0` — the generic
`filled_amount >= amount && amount > 0` rule is never satisfied when
`amount = 0` — and displays the spend from `filled_quote_amount`. -/
theorem market_buy_specified_by_quote_amount :
    (∀ ot os pr am qa : String, os = "market" → ot = "buy" →
      (buildCreateOrderRequest ot os pr am qa).quote_amount = some qa ∧
      (buildCreateOrderRequest ot os pr am qa).amount = none ∧
      (buildCreateOrderRequest ot os pr am qa).price = none) ∧
    (∀ o : ClientOrder, o.order_side = "market" → o.order_type = "buy" →
      o.amount = 0 →
      (fullyFilledFilter o = true ↔ 0 < o.filled_amount) ∧
      (decide (o.amount ≤ o.filled_amount) && decide (0 < o.amount)) = false ∧
      (0 < o.filled_quote_amount →
        marketBuyPaymentDisplay o = .amountPaid o.filled_quote_amount)) := by
  constructor
  · intro ot os pr am qa hos hot
    subst hos
    subst hot
    unfold buildCreateOrderRequest
    rw [if_neg (by decide), if_pos rfl]
    exact ⟨rfl, rfl, rfl⟩
  · intro o hside htype hamt
    refine ⟨?_, ?_, ?_⟩
    · unfold fullyFilledFilter
      rw [if_pos ⟨hside, htype, hamt⟩]
      simp
    · rw [hamt]
      simp
    · intro hq
      unfold marketBuyPaymentDisplay
      rw [if_pos hq]

/-- C10: Every trade row references existing users and orders, and this
referential integrity is maintained by cascading deletion — deleting a
user deletes that user's orders, balances, and every trade in which the
user is buyer or seller, and deletes nothing else from the trades
table. -/
theorem cascade_delete_integrity (db : DbState) (uid : Nat)
    (hri : RefIntegrity db) (hc : TradeOwnersConsistent db) :
    RefIntegrity (deleteUser db uid) ∧
    (∀ u ∈ (deleteUser db uid).users, u.id ≠ uid) ∧
    (∀ o ∈ db.orders, o.userId = uid → o ∉ (deleteUser db uid).orders) ∧
    (∀ b ∈ db.balances, b.userId = uid → b ∉ (deleteUser db uid).balances) ∧
    (∀ t ∈ db.trades, t.buyerId = uid ∨ t.sellerId = uid →
      t ∉ (deleteUser db uid).trades) ∧
    (∀ t ∈ (deleteUser db uid).trades, t ∈ db.trades) := by
  have hmemU : ∀ u : UserRow,
      u ∈ (deleteUser db uid).users ↔ u ∈ db.users ∧ u.id ≠ uid := by
    intro u
    simp [deleteUser, List.mem_filter]
  have hmemO : ∀ o : OrderRow,
      o ∈ (deleteUser db uid).orders ↔ o ∈ db.orders ∧ o.userId ≠ uid := by
    intro o
    simp [deleteUser, List.mem_filter]
  have hmemB : ∀ b : BalanceRow,
      b ∈ (deleteUser db uid).balances ↔ b ∈ db.balances ∧ b.userId ≠ uid := by
    intro b
    simp [deleteUser, List.mem_filter]
  have hmemT : ∀ t : DbTradeRow,
      t ∈ (deleteUser db uid).trades ↔
        t ∈ db.trades ∧ t.buyerId ≠ uid ∧ t.sellerId ≠ uid := by
    intro t
    simp [deleteUser, List.mem_filter]
  refine ⟨⟨?_, ?_, ?_⟩, ?_, ?_, ?_, ?_, ?_⟩
  · intro o ho
    obtain ⟨ho1, ho2⟩ := (hmemO o).mp ho
    obtain ⟨u, hu, huid⟩ := hri.1 o ho1
    exact ⟨u, (hmemU u).mpr ⟨hu, by rw [huid]; exact ho2⟩, huid⟩
  · intro b hb
    obtain ⟨hb1, hb2⟩ := (hmemB b).mp hb
    obtain ⟨u, hu, huid⟩ := hri.2.1 b hb1
    exact ⟨u, (hmemU u).mpr ⟨hu, by rw [huid]; exact hb2⟩, huid⟩
  · intro t ht
    obtain ⟨ht1, htb, hts⟩ := (hmemT t).mp ht
    obtain ⟨hbu, hsu, hbo, hso⟩ := hri.2.2 t ht1
    obtain ⟨u1, hu1, hu1id⟩ := hbu
    obtain ⟨u2, hu2, hu2id⟩ := hsu
    obtain ⟨o1, ho1, ho1id⟩ := hbo
    obtain ⟨o2, ho2, ho2id⟩ := hso
    refine ⟨⟨u1, (hmemU u1).mpr ⟨hu1, by rw [hu1id]; exact htb⟩, hu1id⟩,
      ⟨u2, (hmemU u2).mpr ⟨hu2, by rw [hu2id]; exact hts⟩, hu2id⟩,
      ⟨o1, (hmemO o1).mpr ⟨ho1, ?_⟩, ho1id⟩,
      ⟨o2, (hmemO o2).mpr ⟨ho2, ?_⟩, ho2id⟩⟩
    · have hco := (hc t ht1).1 o1 ho1 ho1id
      rw [hco]
      exact htb
    · have hco := (hc t ht1).2 o2 ho2 ho2id
      rw [hco]
      exact hts
  · intro u hu
    exact ((hmemU u).mp hu).2
  · intro o ho heq hmem
    exact ((hmemO o).mp hmem).2 heq
  · intro b hb heq hmem
    exact ((hmemB b).mp hmem).2 heq
  · intro t ht hor hmem
    obtain ⟨-, htb, hts⟩ := (hmemT t).mp hmem
    rcases hor with h | h
    · exact htb h
    · exact hts h
  · intro t ht
    exact ((hmemT t).mp ht).1

/-! ### Witnesses evaluating each claim theorem at a concrete input -/

/-- Witness for C1: a concrete fill (price 3, quantity 5, fees 1 and 2)
between accounts 0 and 1 with fee account 2, and a concrete
reserve/release/fill sequence conserving the quote-asset total. -/
theorem fill_conservation_witness :
    ((wLed 0 1).locked - (settleFillCore wLed 0 1 2 0 1 3 5 1 2 0 1).locked =
      ((settleFillCore wLed 0 1 2 0 1 3 5 1 2 1 1).available -
        (wLed 1 1).available) + 2) ∧
    ((wLed 1 0).locked - (settleFillCore wLed 0 1 2 0 1 3 5 1 2 1 0).locked =
      ((settleFillCore wLed 0 1 2 0 1 3 5 1 2 0 0).available -
        (wLed 0 0).available) + 1) ∧
    assetTotal [0, 1, 2] 1
        ([LedgerOp.reserveOp 0 1 30, LedgerOp.releaseOp 0 1 10,
          LedgerOp.fillOp 0 1 2 0 1 3 5 1 2].foldl applyLedgerOp wLed) =
      assetTotal [0, 1, 2] 1 wLed := by
  have h := fill_conservation wLed 0 1 2 0 1 3 5 1 2
    (settleFillCore wLed 0 1 2 0 1 3 5 1 2) rfl (by decide) (by decide) (by decide)
  exact ⟨h.1, h.2.1, h.2.2 [0, 1, 2] 1 _ (by decide) (by decide)⟩

/-- Witness for C4: a concrete successful reserve of 40, a failing
reserve of 200 against 100 available, a release of 40, and a settled fill
all preserving nonnegativity on the all-100 ledger. -/
theorem balance_record_invariants_witness :
    ((adjust wLed 0 0 (-40) 40) 0 0).available = (wLed 0 0).available - 40 ∧
    ((adjust wLed 0 0 (-40) 40) 0 0).locked = (wLed 0 0).locked + 40 ∧
    (adjust wLed 0 0 (-40) 40) 1 1 = wLed 1 1 ∧
    NonnegLedger (adjust wLed 0 0 (-40) 40) ∧
    reserve wLed 0 0 200 = .error .insufficientFunds ∧
    applyLedgerOp wLed (.reserveOp 0 0 200) = wLed ∧
    ((adjust wLed 0 0 40 (-40)) 0 0).available = (wLed 0 0).available + 40 ∧
    ((adjust wLed 0 0 40 (-40)) 0 0).locked = (wLed 0 0).locked - 40 ∧
    NonnegLedger (adjust wLed 0 0 40 (-40)) ∧
    NonnegLedger (settleFillCore wLed 0 1 2 0 1 3 5 1 2) := by
  have hn : NonnegLedger wLed := fun a m => ⟨by simp [wLed], by simp [wLed]⟩
  have h := balance_record_invariants
  have h1 := h.1 wLed 0 0 40 (adjust wLed 0 0 (-40) 40) rfl
  have h2 := h.2.1 wLed 0 0 200 (by decide)
  have h3 := h.2.2.1 wLed 0 0 40 (adjust wLed 0 0 40 (-40)) rfl
  have h4 := h.2.2.2 wLed 0 1 2 0 1 3 5 1 2
    (settleFillCore wLed 0 1 2 0 1 3 5 1 2) rfl
    (by decide) (by decide) (by decide) hn
  exact ⟨h1.1, h1.2.1, h1.2.2.1 1 1 (by decide), h1.2.2.2 (by decide) hn,
    h2.1, h2.2, h3.1, h3.2.1, h3.2.2 (by decide) hn, h4⟩

/-- Witness for C2: an incoming limit buy at price 7 matching two ask
levels priced 5 and 6 — the first fill carries the resting price 5, not
the incoming price 7. -/
theorem maker_price_invariant_witness :
    (⟨1, 5, 3⟩ : Fill) ∈
      (matchSide ⟨10, .buy, .limit, 7, 5⟩ 5
        [⟨5, [⟨1, 3⟩]⟩, ⟨6, [⟨2, 4⟩]⟩]).1 ∧
    ∃ l, l ∈ [(⟨5, [⟨1, 3⟩]⟩ : PriceLevel), ⟨6, [⟨2, 4⟩]⟩] ∧
      (⟨1, 5, 3⟩ : Fill).price = l.price ∧
      (⟨1, 5, 3⟩ : Fill).restingId ∈ l.orders.map RestingOrder.id ∧
      ((⟨10, .buy, .limit, 7, 5⟩ : IncomingOrder).price ≠ l.price →
        (⟨1, 5, 3⟩ : Fill).price ≠ (⟨10, .buy, .limit, 7, 5⟩ : IncomingOrder).price) ∧
      ∀ bo so bu se, (mkTrade bo so bu se ⟨1, 5, 3⟩).price = (⟨1, 5, 3⟩ : Fill).price := by
  constructor
  · decide
  · exact maker_price_invariant ⟨10, .buy, .limit, 7, 5⟩ 5
      [⟨5, [⟨1, 3⟩]⟩, ⟨6, [⟨2, 4⟩]⟩] ⟨1, 5, 3⟩ (by decide)

/-- Witness for C3: three resting orders of quantities 2, 3, 4 at price 5
are consumed by one incoming sell of quantity 100 exactly in arrival
order. -/
theorem price_time_priority_witness :
    (∃ t, (matchSide ⟨9, .sell, .limit, 4, 100⟩ 100
        [⟨5, [⟨1, 2⟩, ⟨2, 3⟩, ⟨3, 4⟩]⟩]).1.map Fill.restingId ++ t =
      sideIds [⟨5, [⟨1, 2⟩, ⟨2, 3⟩, ⟨3, 4⟩]⟩]) ∧
    (((matchSide ⟨10, .buy, .limit, 7, 9⟩ 9
        [⟨5, [⟨1, 3⟩]⟩, ⟨6, [⟨2, 4⟩]⟩]).1.map Fill.price).Pairwise
      fun x y => x = y ∨ x < y) ∧
    (matchSide ⟨9, .sell, .limit, 4, 100⟩ 100
        [⟨5, [⟨1, 2⟩, ⟨2, 3⟩, ⟨3, 4⟩]⟩]).1 =
      ([⟨1, 2⟩, ⟨2, 3⟩, ⟨3, 4⟩] : List RestingOrder).map
        fun o => (⟨o.id, 5, o.qty⟩ : Fill) := by
  refine ⟨price_time_priority.1 ⟨9, .sell, .limit, 4, 100⟩ 100 _,
    price_time_priority.2.1 (· < ·) ⟨10, .buy, .limit, 7, 9⟩ 9
      [⟨5, [⟨1, 3⟩]⟩, ⟨6, [⟨2, 4⟩]⟩] ?_,
    price_time_priority.2.2 ⟨9, .sell, .limit, 4, 100⟩ 100 5
      [⟨1, 2⟩, ⟨2, 3⟩, ⟨3, 4⟩] (by decide) (by decide) (by decide)⟩
  simp

/-- Witness for C5: a pending order of amount 10 with 3 filled takes a
fill of 2 and becomes partially filled; cancelling it succeeds; a filled
order admits neither fills nor cancellation. -/
theorem order_status_monotonic_witness :
    (applyFill ⟨10, 3, .pending⟩ 2 = some ⟨10, 5, .partiallyFilled⟩ ∧
      (⟨10, 5, .partiallyFilled⟩ : LifeOrder).filledAmount ≤
        (⟨10, 5, .partiallyFilled⟩ : LifeOrder).amount ∧
      statusStep OrderStatus.pending OrderStatus.partiallyFilled) ∧
    (applyCancel ⟨10, 3, .pending⟩ = some ⟨10, 3, .cancelled⟩ ∧
      statusStep OrderStatus.pending OrderStatus.cancelled) ∧
    (applyFill ⟨10, 10, .filled⟩ 1 = none ∧ applyCancel ⟨10, 10, .filled⟩ = none) := by
  have h := order_status_monotonic
  have h1 := h.1 (⟨10, 3, .pending⟩ : LifeOrder) 2 (⟨10, 5, .partiallyFilled⟩ : LifeOrder) (by decide)
  have h2 := h.2.1 (⟨10, 3, .pending⟩ : LifeOrder) (⟨10, 3, .cancelled⟩ : LifeOrder) (by decide)
  have h3 := h.2.2 (⟨10, 10, .filled⟩ : LifeOrder) 1 (by decide)
  exact ⟨⟨by decide, h1.2.1, h1.2.2.2⟩, ⟨by decide, h2.2⟩, h3⟩

/-- Witness for C6: a submit command against a state whose WAL holds one
entry at sequence number 0 — the new entry gets sequence number 1, the
WAL append precedes the mutations, the response comes last. -/
theorem wal_written_before_mutation_witness :
    WalSeqOk wSt ∧
    (∃ e, (engineStep wSt wCmd).1.wal = wSt.wal ++ [(wSt.nextSeq, e)] ∧
      (engineStep wSt wCmd).2.head? = some (.walAppend wSt.nextSeq e)) ∧
    (engineStep wSt wCmd).1.nextSeq = wSt.nextSeq + 1 ∧
    mutationsLogged (engineStep wSt wCmd).2 = true ∧
    (engineStep wSt wCmd).2.getLast? = some .respond ∧
    WalSeqOk (engineStep wSt wCmd).1 := by
  have hok : WalSeqOk wSt := ⟨by simp [wSt], by simp [wSt]⟩
  have h := wal_written_before_mutation wSt wCmd
  have h1 := h.1 rfl
  exact ⟨hok, h1.1, h1.2.1, h1.2.2.1, h1.2.2.2, h.2.2 hok⟩

/-- Witness for C7: a market sell of 5 units against an empty bid side
yields the distinct no-liquidity outcome with zero fills and an unchanged
book. -/
theorem market_order_never_rests_witness :
    processSubmit ⟨[], []⟩ ⟨7, .sell, .market, 0, 5⟩ =
      (⟨.noLiquidity, [], 5⟩, ⟨[], []⟩) ∧
    SubmitOutcome.noLiquidity ≠ SubmitOutcome.success ∧
    SubmitOutcome.noLiquidity ≠ SubmitOutcome.partialFill ∧
    (processSubmit ⟨[], []⟩ ⟨7, .sell, .market, 0, 5⟩).1.outcome ≠ .rested ∧
    sameLevels (processSubmit ⟨[], []⟩ ⟨7, .sell, .market, 0, 5⟩).2 .sell =
      sameLevels ⟨[], []⟩ .sell := by
  have h := market_order_never_rests ⟨[], []⟩ ⟨7, .sell, .market, 0, 5⟩ rfl
  exact ⟨h.1 rfl, h.2.1.1, h.2.1.2, h.2.2.1, h.2.2.2.1⟩

/-- Witness for C8: cancelling an already-filled order returns a defined
error and leaves the orders and the ledger untouched. -/
theorem cancel_already_terminal_witness :
    (∃ e, cancelOrder [⟨1, 42, .filled, 0, 0⟩] wLed 42 1 =
      (.error e, [⟨1, 42, .filled, 0, 0⟩], wLed)) ∧
    terminalStatus OrderStatus.filled = true := by
  have h := cancel_already_terminal [⟨1, 42, .filled, 0, 0⟩] wLed 42 1
    ⟨1, 42, .filled, 0, 0⟩ rfl
  exact ⟨h.1 rfl, rfl⟩

/-- Witness for C9: the request built for a market buy carries only
`quote_amount`, and a market-buy order with stored amount 0 and 2 units
filled counts as fully filled with its spend read from
`filled_quote_amount`. -/
theorem market_buy_quote_amount_witness :
    ((buildCreateOrderRequest "buy" "market" "" "" "100").quote_amount = some "100" ∧
      (buildCreateOrderRequest "buy" "market" "" "" "100").amount = none ∧
      (buildCreateOrderRequest "buy" "market" "" "" "100").price = none) ∧
    ((fullyFilledFilter ⟨3, "buy", "market", 0, 2, 50⟩ = true ↔ (0 : ℚ) < 2) ∧
      (decide ((0 : ℚ) ≤ 2) && decide ((0 : ℚ) < 0)) = false ∧
      marketBuyPaymentDisplay ⟨3, "buy", "market", 0, 2, 50⟩ = .amountPaid 50) := by
  have h := market_buy_specified_by_quote_amount
  have h1 := h.1 "buy" "market" "" "" "100" rfl rfl
  have h2 := h.2 ⟨3, "buy", "market", 0, 2, 50⟩ rfl rfl rfl
  exact ⟨h1, h2.1, h2.2.1, h2.2.2 (by decide)⟩

/-- Witness for C10: deleting user 1 from the concrete database removes
their order, balance and trade, and the remaining rows still satisfy
referential integrity. -/
theorem cascade_delete_integrity_witness :
    RefIntegrity (deleteUser wDb 1) ∧
    (∀ u ∈ (deleteUser wDb 1).users, u.id ≠ 1) ∧
    (∀ o ∈ wDb.orders, o.userId = 1 → o ∉ (deleteUser wDb 1).orders) ∧
    (∀ b ∈ wDb.balances, b.userId = 1 → b ∉ (deleteUser wDb 1).balances) ∧
    (∀ t ∈ wDb.trades, t.buyerId = 1 ∨ t.sellerId = 1 →
      t ∉ (deleteUser wDb 1).trades) ∧
    (∀ t ∈ (deleteUser wDb 1).trades, t ∈ wDb.trades) := by
  exact cascade_delete_integrity wDb 1 (by unfold RefIntegrity; decide)
    (by unfold TradeOwnersConsistent; decide)

end Exchange
